import Mathlib

/-!
Verification of the selection engine (`src/api/selection.ts`, `src/api/selections.ts`)

This file is a shallow embedding, in Lean 4, of the selection/range engine of
the `dance` editor extension: the position/selection data model, the
direction-normalising helpers (`forward` / `backward`), the end-of-line
normalisation accessors (`endLine` / `endCharacter` / `endPosition`), the
directional seek helper (`seekFrom`), and the selection-collection operations
(`constructor`, `rotate`, `merge` / `mergeOverlapping` / `mergeConsecutive`).

Conventions of the embedding:

* `vscode.Position` is a pair of naturals ordered lexicographically; the
  boolean comparison methods (`isBefore`, `isBeforeOrEqual`, `isAfter`,
  `isAfterOrEqual`, `isEqual`) are transcribed directly.
* `vscode.Selection` stores `anchor` and `active`; `start`/`end` are the
  order-normalised pair exactly as the `vscode.Range` constructor computes
  them.  The TypeScript property `end` is named `endPos` here because `end`
  is a Lean keyword.
* A document is a list of line texts (`List String`); `lineAt(n).text.length`
  becomes `lineLength`.  Out-of-range access, which would throw in vscode, is
  modelled with a default of the empty line (all uses below are in range).
* JavaScript mutation is replaced by explicit state threading.  The
  `Uint8Array` of consumed ("ignored") indices in `Selections.merge` becomes
  a function `Nat → Bool`; the `j = i` / `j++` restart of the inner scan
  becomes a recursive call that resumes at `i + 1`.
* The JavaScript `%` operator on possibly-negative numbers is `Int.tmod`
  (truncated remainder, sign of the dividend), and `array[k]` for a
  possibly-invalid index `k` yields an `Option`.
-/

set_option maxHeartbeats 1000000

/-- One coordinate in a document: `vscode.Position` (line, character). -/
structure Position where
  line : Nat
  character : Nat
deriving DecidableEq, Repr

namespace Position

/-- `vscode.Position.isBefore`: strict lexicographic order. -/
def isBefore (a b : Position) : Bool :=
  a.line < b.line || (a.line == b.line && a.character < b.character)

/-- `vscode.Position.isBeforeOrEqual`. -/
def isBeforeOrEqual (a b : Position) : Bool :=
  a.line < b.line || (a.line == b.line && a.character ≤ b.character)

/-- `vscode.Position.isAfter`. -/
def isAfter (a b : Position) : Bool := b.isBefore a

/-- `vscode.Position.isAfterOrEqual`. -/
def isAfterOrEqual (a b : Position) : Bool := b.isBeforeOrEqual a

/-- `vscode.Position.isEqual`. -/
def isEqual (a b : Position) : Bool := a == b

/-- `vscode.Position.compareTo`, used by `Selections.sort`. -/
def compareTo (a b : Position) : Int :=
  if a.line < b.line then -1
  else if b.line < a.line then 1
  else if a.character < b.character then -1
  else if b.character < a.character then 1
  else 0

theorem isBefore_iff (a b : Position) :
    a.isBefore b = true ↔
      (a.line < b.line ∨ (a.line = b.line ∧ a.character < b.character)) := by
  simp [isBefore, Nat.lt_iff_add_one_le]

theorem isBeforeOrEqual_iff (a b : Position) :
    a.isBeforeOrEqual b = true ↔
      (a.line < b.line ∨ (a.line = b.line ∧ a.character ≤ b.character)) := by
  simp [isBeforeOrEqual]

theorem eq_iff (a b : Position) :
    a = b ↔ (a.line = b.line ∧ a.character = b.character) := by
  cases a; cases b; simp

theorem beq_iff (a b : Position) :
    (a == b) = true ↔ (a.line = b.line ∧ a.character = b.character) := by
  rw [beq_iff_eq, eq_iff]

end Position

/-- `vscode.Selection`: an anchor/active pair of positions. -/
structure Selection where
  anchor : Position
  active : Position
deriving DecidableEq, Repr

namespace Selection

/-- `vscode.Range` constructor normalisation: `start` is the smaller of the
two endpoints (`anchor` wins ties). -/
def start (s : Selection) : Position :=
  if s.anchor.isBeforeOrEqual s.active then s.anchor else s.active

/-- The larger endpoint; the TypeScript property is called `end`. -/
def endPos (s : Selection) : Position :=
  if s.anchor.isBeforeOrEqual s.active then s.active else s.anchor

/-- `vscode.Selection.isReversed`: the active position is strictly before the
anchor. -/
def isReversed (s : Selection) : Bool := s.active.isBefore s.anchor

/-- `vscode.Range.isEmpty`. -/
def isEmpty (s : Selection) : Bool := s.start == s.endPos

theorem start_isBeforeOrEqual_endPos (s : Selection) :
    s.start.isBeforeOrEqual s.endPos = true := by
  rcases s with ⟨⟨al, ac⟩, ⟨bl, bc⟩⟩
  simp only [start, endPos, Position.isBeforeOrEqual]
  by_cases h : (al < bl || (al == bl && ac ≤ bc)) = true <;>
    simp [h] <;> revert h <;> simp <;> omega

end Selection

/-- `Selections.fromStartEnd` (src/api/selection.ts): builds the selection
with the given `start`/`end` and the requested direction. -/
def fromStartEnd (start endP : Position) (reversed : Bool) : Selection :=
  if reversed then ⟨endP, start⟩ else ⟨start, endP⟩

/-- `forward` (src/api/selection.ts): returns the selection unchanged if
`active ≥ anchor`, otherwise the anchor/active-swapped selection. -/
def forward (selection : Selection) : Selection :=
  if selection.active.isAfterOrEqual selection.anchor then selection
  else ⟨selection.active, selection.anchor⟩

/-- `backward` (src/api/selection.ts): returns the selection unchanged if
`active ≤ anchor`, otherwise the anchor/active-swapped selection. -/
def backward (selection : Selection) : Selection :=
  if selection.active.isBeforeOrEqual selection.anchor then selection
  else ⟨selection.active, selection.anchor⟩

/-! ## The merge engine (`Selections.merge`, src/api/selections.ts lines 209–325) -/

/-- The action the inner scan of `Selections.merge` takes for the current
pair (A = the selection being grown, B = `selections[j]`), transcribing the
`if`/`else` chain of the loop body:

* `skip` — the final `continue`s: nothing happens, the scan moves on;
* `dropEqualEmpty` — A and B are equal empty selections; B is consumed and
  `changed` is set;
* `absorbIntoEmpty` — A is empty and the test
  `bStart.isBeforeOrEqual(aStart) && bEnd.isAfterOrEqual(bStart)` passes
  (transcribed verbatim: its second conjunct compares `bEnd` with `bStart`);
  A takes B's bounds, B is consumed, the scan moves on without restarting;
* `dropContained` — "B is included in A": B is consumed, nothing else
  changes and the scan moves on;
* `mergeBounds s e` — A's bounds become `[s, e)`, B is consumed, and the
  scan restarts from `i + 1` (the `j = i` line). -/
inductive MergeAction where
  | skip
  | dropEqualEmpty
  | absorbIntoEmpty
  | dropContained
  | mergeBounds (newStart newEnd : Position)
deriving DecidableEq, Repr

/-- The branch classification of one step of the inner scan of
`Selections.merge` for current bounds `(aStart, aEnd)`, emptiness flag
`aIsEmpty`, and the later selection `b`. -/
def classify (alsoMergeConsecutive : Bool) (aStart aEnd : Position)
    (aIsEmpty : Bool) (b : Selection) : MergeAction :=
  let bStart := b.start
  let bEnd := b.endPos
  if aIsEmpty then
    if bStart == bEnd then
      if bStart == aStart then .dropEqualEmpty else .skip
    else if bStart.isBeforeOrEqual aStart && bEnd.isAfterOrEqual bStart then
      .absorbIntoEmpty
    else .skip
  else if aStart.isAfterOrEqual bStart &&
      (aStart.isBefore bEnd || (alsoMergeConsecutive && aStart == bEnd)) then
    if aEnd.isBeforeOrEqual bEnd then .mergeBounds bStart bEnd
    else if aStart == bStart then .dropContained
    else .mergeBounds bStart aEnd
  else if (aEnd.isAfter bStart || (alsoMergeConsecutive && aEnd == bStart)) &&
      aEnd.isBeforeOrEqual bEnd then
    .mergeBounds aStart bEnd
  else .skip

/-- The mutable locals of one outer iteration of `Selections.merge`:
`aStart`, `aEnd`, `aIsEmpty`, `changed`, and the shared array of consumed
indices (`ignoreSelections`, a `Uint8Array` in the source). -/
structure MergeState where
  aStart : Position
  aEnd : Position
  aIsEmpty : Bool
  changed : Bool
  ignore : Nat → Bool

/-- Marking index `j` of `ignoreSelections` as consumed. -/
def setIgnore (g : Nat → Bool) (j : Nat) : Nat → Bool :=
  fun k => if k = j then true else g k

/-- The number of not-yet-consumed indices below `n`: the termination measure
of the restarting inner scan. -/
def countFalse (n : Nat) (g : Nat → Bool) : Nat :=
  ((Finset.range n).filter (fun k => g k = false)).card

theorem countFalse_set_le (n : Nat) (g : Nat → Bool) (j : Nat) :
    countFalse n (setIgnore g j) ≤ countFalse n g := by
  apply Finset.card_le_card
  intro k hk
  simp only [Finset.mem_filter, Finset.mem_range, setIgnore] at hk ⊢
  obtain ⟨hkn, hks⟩ := hk
  refine ⟨hkn, ?_⟩
  split at hks
  · exact absurd hks (by simp)
  · exact hks

theorem countFalse_set_lt (n : Nat) (g : Nat → Bool) (j : Nat)
    (hj : j < n) (hg : g j = false) :
    countFalse n (setIgnore g j) < countFalse n g := by
  apply Finset.card_lt_card
  constructor
  · intro k hk
    simp only [Finset.mem_filter, Finset.mem_range, setIgnore] at hk ⊢
    obtain ⟨hkn, hks⟩ := hk
    refine ⟨hkn, ?_⟩
    split at hks
    · exact absurd hks (by simp)
    · exact hks
  · intro hsub
    have hmem : j ∈ (Finset.range n).filter (fun k => g k = false) := by
      simp [Finset.mem_filter, Finset.mem_range, hj, hg]
    have := hsub hmem
    simp [Finset.mem_filter, setIgnore] at this

theorem measure_decreases (len cf cf' x y : Nat) (h : cf' < cf) (hx : x ≤ len) :
    (len + 1) * cf' + x < (len + 1) * cf + y := by
  have hm : (len + 1) * (cf' + 1) ≤ (len + 1) * cf := Nat.mul_le_mul_left _ h
  calc (len + 1) * cf' + x ≤ (len + 1) * cf' + len := by omega
    _ < (len + 1) * cf' + (len + 1) := by omega
    _ = (len + 1) * (cf' + 1) := by ring
    _ ≤ (len + 1) * cf := hm
    _ ≤ (len + 1) * cf + y := by omega

/-- The inner `for (let j = i + 1; j < len; j++)` scan of `Selections.merge`,
as a recursion on `j` and the mutable state.  A `mergeBounds` step models the
source's `j = i` (followed by the loop's `j++`) by resuming at `i + 1`. -/
def innerLoop (consec : Bool) (sels : List Selection) (i : Nat) (j : Nat)
    (st : MergeState) : MergeState :=
  if h : j < sels.length then
    if hig : st.ignore j then innerLoop consec sels i (j + 1) st
    else
      match classify consec st.aStart st.aEnd st.aIsEmpty (sels.get ⟨j, h⟩) with
      | .skip => innerLoop consec sels i (j + 1) st
      | .dropEqualEmpty =>
          innerLoop consec sels i (j + 1)
            { st with changed := true, ignore := setIgnore st.ignore j }
      | .absorbIntoEmpty =>
          innerLoop consec sels i (j + 1)
            { aStart := (sels.get ⟨j, h⟩).start, aEnd := (sels.get ⟨j, h⟩).endPos,
              aIsEmpty := false, changed := true, ignore := setIgnore st.ignore j }
      | .dropContained =>
          innerLoop consec sels i (j + 1) { st with ignore := setIgnore st.ignore j }
      | .mergeBounds s e =>
          innerLoop consec sels i (i + 1)
            { st with aStart := s, aEnd := e, changed := true, ignore := setIgnore st.ignore j }
  else st
termination_by (sels.length + 1) * countFalse sels.length st.ignore + (sels.length - j)
decreasing_by
  · simp_wf; omega
  · simp_wf; omega
  · simp_wf
    exact Nat.add_lt_add_of_le_of_lt
      (Nat.mul_le_mul_left _ (countFalse_set_le _ _ _)) (by omega) |>.trans_le (le_refl _)
  · simp_wf
    exact Nat.add_lt_add_of_le_of_lt
      (Nat.mul_le_mul_left _ (countFalse_set_le _ _ _)) (by omega) |>.trans_le (le_refl _)
  · simp_wf
    exact Nat.add_lt_add_of_le_of_lt
      (Nat.mul_le_mul_left _ (countFalse_set_le _ _ _)) (by omega) |>.trans_le (le_refl _)
  · simp_wf
    exact measure_decreases _ _ _ _ _
      (countFalse_set_lt _ _ _ h (Bool.not_eq_true _ ▸ hig)) (by omega)

/-- The outer `for (let i = 0; i < len; i++)` loop of `Selections.merge`.
`acc` accumulates the output (`newSelections` in the source; the lazy
`newSelections ??= this.selections.slice(0, i)` initialisation is
value-equivalent to always accumulating, because every index consumed by an
inner scan lies after the outer index that consumed it). -/
def mergeLoop (consec : Bool) (sels : List Selection) (i : Nat)
    (g : Nat → Bool) (acc : List Selection) : List Selection :=
  if h : i < sels.length then
    if g i then mergeLoop consec sels (i + 1) g acc
    else
      let a := sels.get ⟨i, h⟩
      let st := innerLoop consec sels i (i + 1)
        { aStart := a.start, aEnd := a.endPos, aIsEmpty := a.start == a.endPos,
          changed := false, ignore := g }
      mergeLoop consec sels (i + 1) st.ignore
        (acc ++ [if st.changed then fromStartEnd st.aStart st.aEnd a.isReversed else a])
  else acc
termination_by sels.length - i

namespace Selections

/-- `Selections.merge` (private method, src/api/selections.ts). -/
def merge (alsoMergeConsecutiveSelections : Bool) (selections : List Selection) :
    List Selection :=
  mergeLoop alsoMergeConsecutiveSelections selections 0 (fun _ => false) []

/-- `Selections.mergeOverlapping`. -/
def mergeOverlapping (selections : List Selection) : List Selection :=
  merge false selections

/-- `Selections.mergeConsecutive`. -/
def mergeConsecutive (selections : List Selection) : List Selection :=
  merge true selections

end Selections

/-! ## Document model and the `selection.ts` accessors -/

/-- A document snapshot: the text of each line (without its line break).
`lineAt(n).text.length` is `lineLength doc n`; out-of-range lines, an error
in vscode, default to the empty line (all uses below are in range). -/
def lineLength (doc : List String) (n : Nat) : Nat := (doc.getD n "").length

/-- `endLine` (src/api/selection.ts lines 119–135): the line of the end of
the selection, shifted up by one when a multi-line selection ends at
character 0 (it then only selects the previous line's break). -/
def endLine (selection : Selection) : Nat :=
  let startLine := selection.start.line
  let e := selection.endPos
  if startLine != e.line && e.character == 0 then e.line - 1 else e.line

/-- `endCharacter` (src/api/selection.ts lines 145–159): the character of the
end of the selection; under the same line-shift rule as `endLine` it is the
previous line's length plus one. -/
def endCharacter (doc : List String) (selection : Selection) : Nat :=
  let startLine := selection.start.line
  let e := selection.endPos
  if startLine != e.line && e.character == 0 then lineLength doc (e.line - 1) + 1
  else e.character

/-- `endPosition` (src/api/selection.ts lines 166–180): the end position,
collapsed to the end of the previous line when the line-shift rule applies. -/
def endPosition (doc : List String) (selection : Selection) : Position :=
  let line := endLine selection
  if line != selection.endPos.line then ⟨line, lineLength doc line⟩
  else selection.endPos

/-- `SelectionBehavior` (src/api/types.ts, imported by selection.ts). -/
inductive SelectionBehavior where
  | Caret
  | Character
deriving DecidableEq, Repr

/-- `Direction` (src/api/types.ts, imported by selection.ts). -/
inductive Direction where
  | Backward
  | Forward
deriving DecidableEq, Repr

namespace Positions

/-- Modelled from the spec: `Positions.previous` lives in
`src/api/positions.ts`, which is not part of the given sources.  Spec §3:
stepping moves one character, crossing line boundaries, and there is no
predecessor at the document's start.  One character back from the first
column of a line is the end of the previous line (the line-break position
counts as one character). -/
def previous (doc : List String) (p : Position) : Option Position :=
  if 0 < p.character then some ⟨p.line, p.character - 1⟩
  else if p.line = 0 then none
  else some ⟨p.line - 1, lineLength doc (p.line - 1)⟩

/-- Modelled from the spec: `Positions.next` lives in `src/api/positions.ts`,
which is not part of the given sources.  Spec §3: stepping moves one
character, crossing line boundaries, and there is no successor at the
document's end.  One character forward from the end of a line is the first
column of the next line. -/
def next (doc : List String) (p : Position) : Option Position :=
  if p.character < lineLength doc p.line then some ⟨p.line, p.character + 1⟩
  else if p.line + 1 < doc.length then some ⟨p.line + 1, 0⟩
  else none

end Positions

/-- `seekFrom` (src/api/selection.ts lines 289–304).  The JavaScript `===`
comparisons of the reference with `selection.start` / `selection.end` are
modelled as value equality, and `Positions.previous(...) ?? position` is
`Option.getD`. -/
def seekFrom (selectionBehavior : SelectionBehavior) (doc : List String)
    (selection : Selection) (direction : Direction) (position : Position) :
    Position :=
  if selectionBehavior = SelectionBehavior.Character then
    if direction = Direction.Forward then
      if position == selection.start then position
      else (Positions.previous doc position).getD position
    else
      if position == selection.endPos then position
      else (Positions.next doc position).getD position
  else position

/-! ## The selection collection (`Selections` class state, constructor, `rotate`) -/

/-- `Selections.sort`: `this.selections.sort((a, b) => a.start.compareTo(b.start))`,
a stable sort on the start position. -/
def sortSelections (selections : List Selection) : List Selection :=
  selections.mergeSort (fun a b => a.start.compareTo b.start ≤ 0)

/-- The fields of the `Selections` class.  `primarySelection` is declared
non-null (`!`) in the source, but JavaScript lets `selections[0]` on an empty
array and `selections[k]` on a negative `k` produce `undefined`, so the model
must allow `none`. -/
structure SelectionsState where
  selections : List Selection
  primarySelection : Option Selection
deriving DecidableEq, Repr

/-- The `Selections` constructor (src/api/selections.ts lines 18–25): stores
the selections, takes the given primary selection or else the first element
(`undefined` on an empty array — no emptiness check exists), then sorts.
No error path exists. -/
def Selections.construct (selections : List Selection)
    (primarySelection : Option Selection := none) : SelectionsState :=
  { selections := sortSelections selections,
    primarySelection := primarySelection.orElse (fun _ => selections.head?) }

/-- `List.indexOf` with JavaScript semantics: `-1` when absent (also when the
sought value is `undefined`, i.e. `none`). -/
def indexOfJs (l : List Selection) (s : Option Selection) : Int :=
  match s with
  | none => -1
  | some sel =>
    match l.indexOf? sel with
    | none => -1
    | some k => (k : Int)

/-- `Selections.rotate` (src/api/selections.ts lines 87–93):
`this.primarySelection = this.selections[(index + by) % this.selections.length]`.
JavaScript `%` is the truncated remainder (`Int.tmod`), which is negative for
a negative left operand, and indexing an array at a negative (or otherwise
invalid) position yields `undefined` (`none`). -/
def Selections.rotate (st : SelectionsState) (by_ : Int) : SelectionsState :=
  let primarySelectionIndex := indexOfJs st.selections st.primarySelection
  let newIndex := (primarySelectionIndex + by_).tmod (st.selections.length : Int)
  { st with primarySelection :=
      if 0 ≤ newIndex then st.selections.get? newIndex.toNat else none }


/-! ## Helper predicates used by the claims -/

/-- Whether the `[start, end)` spans of two selections intersect (their
intersection `[max of starts, min of ends)` is non-empty). -/
def spansIntersect (a b : Selection) : Bool :=
  (if a.start.isAfterOrEqual b.start then a.start else b.start).isBefore
    (if a.endPos.isBeforeOrEqual b.endPos then a.endPos else b.endPos)

theorem startEnd_swap (a b : Position) :
    Selection.start ⟨a, b⟩ = Selection.start ⟨b, a⟩ ∧
    Selection.endPos ⟨a, b⟩ = Selection.endPos ⟨b, a⟩ := by
  rcases a with ⟨al, ac⟩; rcases b with ⟨bl, bc⟩
  simp only [Selection.start, Selection.endPos, Position.isBeforeOrEqual]
  constructor <;>
    (split_ifs <;> first | rfl | (simp_all [Position.mk.injEq]; omega))

/-- C10: `forward` and `backward` return a selection with exactly the same
`start` and `end` positions as their input; they only swap (or keep) the
anchor/active roles. -/
theorem forward_backward_preserve_start_end (s : Selection) :
    (forward s).start = s.start ∧ (forward s).endPos = s.endPos ∧
    (backward s).start = s.start ∧ (backward s).endPos = s.endPos := by
  rcases s with ⟨a, b⟩
  unfold forward backward
  refine ⟨?_, ?_, ?_, ?_⟩ <;> split <;>
    first
      | rfl
      | exact (startEnd_swap a b).1.symm
      | exact (startEnd_swap a b).2.symm

/-- C1 (code bug): `mergeOverlapping` does not merge a selection strictly
contained in an earlier one.  On the collection
`[(0,0)-(0,4), (0,1)-(0,2)]` (already sorted by start), the output is the
input itself, yet the two distinct selections have intersecting
`[start, end)` spans — contradicting the method's own documentation that
"all overlapping selections have been merged". -/
theorem mergeOverlapping_leaves_nested_overlap :
    Selections.mergeOverlapping [⟨⟨0,0⟩,⟨0,4⟩⟩, ⟨⟨0,1⟩,⟨0,2⟩⟩] =
      [⟨⟨0,0⟩,⟨0,4⟩⟩, ⟨⟨0,1⟩,⟨0,2⟩⟩] ∧
    spansIntersect ⟨⟨0,0⟩,⟨0,4⟩⟩ ⟨⟨0,1⟩,⟨0,2⟩⟩ = true ∧
    (⟨⟨0,0⟩,⟨0,4⟩⟩ : Selection) ≠ ⟨⟨0,1⟩,⟨0,2⟩⟩ := by
  refine ⟨?_, by decide, by decide⟩
  simp [Selections.mergeOverlapping, Selections.merge, mergeLoop, innerLoop,
    classify, setIgnore, Selection.start, Selection.endPos,
    Position.isBeforeOrEqual, Position.isBefore, Position.isAfterOrEqual,
    Position.isAfter, fromStartEnd, Selection.isReversed]

/-- C2 (counterexample): `mergeOverlapping` is not idempotent on an arbitrary
(unsorted) collection.  On `[empty at (0,0), (0,1)-(0,2), (0,0)-(0,2)]` the
first pass absorbs the empty selection into `(0,0)-(0,2)` without
re-scanning the skipped `(0,1)-(0,2)` (the empty-absorption branch does not
restart the inner scan), producing `[(0,0)-(0,2), (0,1)-(0,2)]`; a second
pass merges those two into `[(0,0)-(0,2)]`. -/
theorem mergeOverlapping_not_idempotent :
    Selections.mergeOverlapping
        (Selections.mergeOverlapping
          [⟨⟨0,0⟩,⟨0,0⟩⟩, ⟨⟨0,1⟩,⟨0,2⟩⟩, ⟨⟨0,0⟩,⟨0,2⟩⟩]) ≠
      Selections.mergeOverlapping
        [⟨⟨0,0⟩,⟨0,0⟩⟩, ⟨⟨0,1⟩,⟨0,2⟩⟩, ⟨⟨0,0⟩,⟨0,2⟩⟩] := by
  simp [Selections.mergeOverlapping, Selections.merge, mergeLoop, innerLoop,
    classify, setIgnore, Selection.start, Selection.endPos,
    Position.isBeforeOrEqual, Position.isBefore, Position.isAfterOrEqual,
    Position.isAfter, fromStartEnd, Selection.isReversed]

/-- C3 (code bug): both directions of the empty-selection absorption rule
fail.  The empty selection at `(0,5)` is absorbed into `(0,0)-(0,2)` even
though `(0,5)` is far outside that span (the source's inclusion test
`bStart.isBeforeOrEqual(aStart) && bEnd.isAfterOrEqual(bStart)` compares
`bEnd` with `bStart` instead of with the empty selection's position), and
the empty selection at `(0,2)`, strictly inside the earlier `(0,0)-(0,4)`,
is not absorbed at all (no branch of the non-empty scan tests whether a
later empty selection falls inside the current bounds). -/
theorem merge_empty_absorption_violates_span_rule :
    Selections.mergeOverlapping [⟨⟨0,5⟩,⟨0,5⟩⟩, ⟨⟨0,0⟩,⟨0,2⟩⟩] =
      [⟨⟨0,0⟩,⟨0,2⟩⟩] ∧
    Selections.mergeOverlapping [⟨⟨0,0⟩,⟨0,4⟩⟩, ⟨⟨0,2⟩,⟨0,2⟩⟩] =
      [⟨⟨0,0⟩,⟨0,4⟩⟩, ⟨⟨0,2⟩,⟨0,2⟩⟩] := by
  constructor <;>
    simp [Selections.mergeOverlapping, Selections.merge, mergeLoop, innerLoop,
      classify, setIgnore, Selection.start, Selection.endPos,
      Position.isBeforeOrEqual, Position.isBefore, Position.isAfterOrEqual,
      Position.isAfter, fromStartEnd, Selection.isReversed]

/-- C4 (counterexample): the collection-level merges of `mergeConsecutive`
are not a superset of `mergeOverlapping`'s.  On
`[(0,0)-(0,1), (0,1)-(0,3), (0,1)-(0,2)]`, `mergeOverlapping` merges the
pair `(0,1)-(0,3)` / `(0,1)-(0,2)` (equal starts), while `mergeConsecutive`
first merges `(0,0)-(0,1)` with the touching `(0,1)-(0,3)` into
`(0,0)-(0,3)`, after which `(0,1)-(0,2)` is strictly contained and is never
merged. -/
theorem mergeConsecutive_not_superset :
    Selections.mergeOverlapping
        [⟨⟨0,0⟩,⟨0,1⟩⟩, ⟨⟨0,1⟩,⟨0,3⟩⟩, ⟨⟨0,1⟩,⟨0,2⟩⟩] =
      [⟨⟨0,0⟩,⟨0,1⟩⟩, ⟨⟨0,1⟩,⟨0,3⟩⟩] ∧
    Selections.mergeConsecutive
        [⟨⟨0,0⟩,⟨0,1⟩⟩, ⟨⟨0,1⟩,⟨0,3⟩⟩, ⟨⟨0,1⟩,⟨0,2⟩⟩] =
      [⟨⟨0,0⟩,⟨0,3⟩⟩, ⟨⟨0,1⟩,⟨0,2⟩⟩] := by
  constructor <;>
    simp [Selections.mergeOverlapping, Selections.mergeConsecutive,
      Selections.merge, mergeLoop, innerLoop, classify, setIgnore,
      Selection.start, Selection.endPos, Position.isBeforeOrEqual,
      Position.isBefore, Position.isAfterOrEqual, Position.isAfter,
      fromStartEnd, Selection.isReversed]

theorem classify_skip_mono (aStart aEnd : Position) (aIsEmpty : Bool)
    (b : Selection)
    (h : classify true aStart aEnd aIsEmpty b = .skip) :
    classify false aStart aEnd aIsEmpty b = .skip := by
  unfold classify at h ⊢
  cases aIsEmpty
  · simp only [Bool.false_eq_true, if_false, Bool.false_and, Bool.or_false,
      Bool.true_and] at h ⊢
    split_ifs at h ⊢ <;> simp_all <;> tauto
  · exact h

/-- C4 (amended): on the document `"abcd"`, `mergeOverlapping` leaves the
touching selections `(0,0)-(0,2)` and `(0,2)-(0,4)` unchanged while
`mergeConsecutive` produces exactly `(0,0)-(0,4)`; and the *pairwise* merge
test of the engine is monotone — any pair on which the overlapping-only scan
takes an action is a pair on which the consecutive scan takes an action.
(The collection-level superset statement is false, see
`mergeConsecutive_not_superset`.) -/
theorem mergeConsecutive_scenario_and_pairwise_superset :
    Selections.mergeOverlapping [⟨⟨0,0⟩,⟨0,2⟩⟩, ⟨⟨0,2⟩,⟨0,4⟩⟩] =
      [⟨⟨0,0⟩,⟨0,2⟩⟩, ⟨⟨0,2⟩,⟨0,4⟩⟩] ∧
    Selections.mergeConsecutive [⟨⟨0,0⟩,⟨0,2⟩⟩, ⟨⟨0,2⟩,⟨0,4⟩⟩] =
      [⟨⟨0,0⟩,⟨0,4⟩⟩] ∧
    ∀ (aStart aEnd : Position) (aIsEmpty : Bool) (b : Selection),
      classify false aStart aEnd aIsEmpty b ≠ .skip →
      classify true aStart aEnd aIsEmpty b ≠ .skip := by
  refine ⟨?_, ?_, fun aStart aEnd aIsEmpty b h hc =>
    h (classify_skip_mono aStart aEnd aIsEmpty b hc)⟩ <;>
    simp [Selections.mergeOverlapping, Selections.mergeConsecutive,
      Selections.merge, mergeLoop, innerLoop, classify, setIgnore,
      Selection.start, Selection.endPos, Position.isBeforeOrEqual,
      Position.isBefore, Position.isAfterOrEqual, Position.isAfter,
      fromStartEnd, Selection.isReversed]

theorem mergeConsecutive_scenario_and_pairwise_superset_witness :
    classify true ⟨0,0⟩ ⟨0,2⟩ false ⟨⟨0,1⟩,⟨0,3⟩⟩ ≠ MergeAction.skip :=
  mergeConsecutive_scenario_and_pairwise_superset.2.2
    ⟨0,0⟩ ⟨0,2⟩ false ⟨⟨0,1⟩,⟨0,3⟩⟩ (by decide)

/-- C6: the `endLine` / `endCharacter` / `endPosition` contract.  When start
and end share a line, `endLine` is that line; when a multi-line selection
ends at character 0, `endLine` is `end.line - 1` and `endCharacter` is the
previous line's length plus one; otherwise they are `end.line` and
`end.character`.  On the two-line document `"abc"` / `"def"`, the selection
`(0,0)-(1,0)` has `endLine 0`, `endCharacter 4` and `endPosition (0,3)`. -/
theorem endLine_endCharacter_contract (doc : List String) (sel : Selection) :
    (sel.start.line = sel.endPos.line → endLine sel = sel.start.line) ∧
    (sel.start.line ≠ sel.endPos.line → sel.endPos.character = 0 →
      endLine sel = sel.endPos.line - 1 ∧
      endCharacter doc sel = lineLength doc (sel.endPos.line - 1) + 1) ∧
    (¬(sel.start.line ≠ sel.endPos.line ∧ sel.endPos.character = 0) →
      endLine sel = sel.endPos.line ∧
      endCharacter doc sel = sel.endPos.character) ∧
    endLine ⟨⟨0,0⟩,⟨1,0⟩⟩ = 0 ∧
    endCharacter ["abc", "def"] ⟨⟨0,0⟩,⟨1,0⟩⟩ = 4 ∧
    endPosition ["abc", "def"] ⟨⟨0,0⟩,⟨1,0⟩⟩ = ⟨0,3⟩ := by
  refine ⟨?_, ?_, ?_, by decide, by decide, by decide⟩
  · intro h
    simp [endLine, h]
  · intro h1 h2
    constructor <;> simp [endLine, endCharacter, h1, h2]
  · intro h
    constructor <;>
      · simp only [endLine, endCharacter, Bool.and_eq_true, bne_iff_ne,
          beq_iff_eq]
        rw [if_neg h]

theorem endLine_endCharacter_contract_witness :
    endLine ⟨⟨0,0⟩,⟨1,0⟩⟩ = 1 - 1 ∧
    endCharacter ["abc", "def"] ⟨⟨0,0⟩,⟨1,0⟩⟩ =
      lineLength ["abc", "def"] 0 + 1 := by
  have h := (endLine_endCharacter_contract ["abc", "def"] ⟨⟨0,0⟩,⟨1,0⟩⟩).2.1
    (by decide) (by decide)
  exact ⟨h.1, h.2⟩

/-- C7 (code bug): `rotate` uses the JavaScript `%`, which is negative for a
negative dividend, so rotating by a negative amount sets the primary
selection to `undefined` (`this.selections[-2]`).  On a collection of three
selections with the first as primary, `rotate(-2)` followed by
`rotate(n - k mod n) = rotate(2)` does not restore the original primary:
`indexOf(undefined)` is `-1` and `(-1 + 2) % 3 = 1` selects the second
selection. -/
theorem rotate_negative_breaks_primary :
    (Selections.construct
        [⟨⟨0,0⟩,⟨0,0⟩⟩, ⟨⟨0,1⟩,⟨0,1⟩⟩, ⟨⟨0,2⟩,⟨0,2⟩⟩]).primarySelection =
      some ⟨⟨0,0⟩,⟨0,0⟩⟩ ∧
    (Selections.rotate
        (Selections.construct [⟨⟨0,0⟩,⟨0,0⟩⟩, ⟨⟨0,1⟩,⟨0,1⟩⟩, ⟨⟨0,2⟩,⟨0,2⟩⟩])
        (-2)).primarySelection = none ∧
    (Selections.rotate
        (Selections.rotate
          (Selections.construct
            [⟨⟨0,0⟩,⟨0,0⟩⟩, ⟨⟨0,1⟩,⟨0,1⟩⟩, ⟨⟨0,2⟩,⟨0,2⟩⟩])
          (-2))
        2).primarySelection = some ⟨⟨0,1⟩,⟨0,1⟩⟩ ∧
    (⟨⟨0,1⟩,⟨0,1⟩⟩ : Selection) ≠ ⟨⟨0,0⟩,⟨0,0⟩⟩ := by
  refine ⟨?_, ?_, ?_, by decide⟩ <;>
    · simp [Selections.rotate, Selections.construct, sortSelections,
        Position.compareTo, indexOfJs, List.indexOf?, List.mergeSort,
        Option.orElse, Selection.start, Position.isBeforeOrEqual]
      try decide

/-- C9 (code bug): the `Selections` constructor accepts an empty collection
without any error: there is no emptiness check anywhere in the class, and
`primarySelection`, declared non-null (`!`), silently becomes `undefined`
(`selections[0]` on `[]`).  The doc comment of `setCurrent` even shows
`Selections.set([])` throwing `EmptySelectionsError`, but no such check is
implemented. -/
theorem construct_empty_no_error :
    (Selections.construct []).selections = [] ∧
    (Selections.construct []).primarySelection = none := by
  constructor <;> simp [Selections.construct, sortSelections, Option.orElse]

/-- The behaviour claim C8 attributes to `seekFrom`, written out for
comparison with the source: in *Character* mode the reference would move one
character **further in the given direction** (forward seek steps forward,
backward seek steps backward), except at the corresponding extreme; *Caret*
mode returns the reference unchanged. -/
def seekFromClaimed (selectionBehavior : SelectionBehavior) (doc : List String)
    (selection : Selection) (direction : Direction) (position : Position) :
    Position :=
  match selectionBehavior with
  | .Caret => position
  | .Character =>
    match direction with
    | .Forward =>
      if position = selection.start then position
      else (Positions.next doc position).getD position
    | .Backward =>
      if position = selection.endPos then position
      else (Positions.previous doc position).getD position

/-- C8 (counterexample): `seekFrom` steps *opposite* to the given direction,
not "one character further in the given direction".  In Character mode, on
the document `"abcd"` with the selection `(0,0)-(0,2)` and its active
position `(0,2)` as the reference, a forward seek returns `(0,1)` (one
character backward), whereas the claimed contract would return `(0,3)`. -/
theorem seekFrom_moves_opposite_to_claim :
    seekFrom .Character ["abcd"] ⟨⟨0,0⟩,⟨0,2⟩⟩ .Forward ⟨0,2⟩ = ⟨0,1⟩ ∧
    seekFromClaimed .Character ["abcd"] ⟨⟨0,0⟩,⟨0,2⟩⟩ .Forward ⟨0,2⟩ = ⟨0,3⟩ ∧
    seekFrom .Character ["abcd"] ⟨⟨0,0⟩,⟨0,2⟩⟩ .Forward ⟨0,2⟩ ≠
      seekFromClaimed .Character ["abcd"] ⟨⟨0,0⟩,⟨0,2⟩⟩ .Forward ⟨0,2⟩ := by
  decide

/-- The amended contract of `seekFrom`, following the source's intent (the
seek start must *include* the currently hovered character): in *Character*
mode the reference moves one character **opposite** to the seek direction —
`previous` for a forward seek, `next` for a backward seek — except that it
stays put when it already sits at the corresponding extreme (the selection's
`start` for a forward seek, its `end` for a backward seek) or when the step
would leave the document; in *Caret* mode the reference is returned
unchanged. -/
def seekFromAmendedContract (selectionBehavior : SelectionBehavior)
    (doc : List String) (selection : Selection) (direction : Direction)
    (position : Position) : Position :=
  match selectionBehavior with
  | .Caret => position
  | .Character =>
    let stepOpposite :=
      match direction with
      | .Forward => Positions.previous doc position
      | .Backward => Positions.next doc position
    let extreme :=
      match direction with
      | .Forward => selection.start
      | .Backward => selection.endPos
    if position = extreme then position else stepOpposite.getD position

/-- C8 (amended): `seekFrom` implements the amended contract, for every
selection behavior, document, selection, direction and reference position. -/
theorem seekFrom_eq_amended_contract (selectionBehavior : SelectionBehavior)
    (doc : List String) (selection : Selection) (direction : Direction)
    (position : Position) :
    seekFrom selectionBehavior doc selection direction position =
      seekFromAmendedContract selectionBehavior doc selection direction
        position := by
  cases selectionBehavior <;> cases direction <;>
    simp [seekFrom, seekFromAmendedContract, beq_iff_eq]

theorem Position.isAfter_iff (a b : Position) :
    a.isAfter b = true ↔
      (b.line < a.line ∨ (b.line = a.line ∧ b.character < a.character)) :=
  Position.isBefore_iff b a

theorem Position.isAfterOrEqual_iff (a b : Position) :
    a.isAfterOrEqual b = true ↔
      (b.line < a.line ∨ (b.line = a.line ∧ b.character ≤ a.character)) :=
  Position.isBeforeOrEqual_iff b a

theorem classify_mergeBounds_le (consec : Bool) (aStart aEnd : Position)
    (aIsEmpty : Bool) (b : Selection) (s e : Position)
    (hle : aStart.isBeforeOrEqual aEnd = true)
    (h : classify consec aStart aEnd aIsEmpty b = .mergeBounds s e) :
    s.isBeforeOrEqual e = true := by
  have hb := Selection.start_isBeforeOrEqual_endPos b
  dsimp only [classify] at h
  split_ifs at h with h1 h2 h3 h4 h5 h6
  all_goals simp at h
  all_goals
    obtain ⟨rfl, rfl⟩ := h
  all_goals
    simp only [Bool.and_eq_true, Bool.or_eq_true, Position.isBefore_iff,
      Position.isBeforeOrEqual_iff, Position.isAfter_iff,
      Position.isAfterOrEqual_iff, Position.beq_iff, Position.eq_iff] at *
  all_goals omega

theorem classify_mergeBounds_strict (consec : Bool) (aStart aEnd : Position)
    (b : Selection) (s e : Position)
    (hlt : aStart.isBefore aEnd = true)
    (h : classify consec aStart aEnd false b = .mergeBounds s e) :
    s.isBefore e = true := by
  have hb := Selection.start_isBeforeOrEqual_endPos b
  dsimp only [classify] at h
  split_ifs at h with h1 h2 h3
  all_goals simp at h
  all_goals
    obtain ⟨rfl, rfl⟩ := h
  all_goals
    simp only [Bool.and_eq_true, Bool.or_eq_true, Position.isBefore_iff,
      Position.isBeforeOrEqual_iff, Position.isAfter_iff,
      Position.isAfterOrEqual_iff, Position.beq_iff, Position.eq_iff] at *
  all_goals omega

theorem classify_absorb_of_nonempty (consec : Bool) (aStart aEnd : Position)
    (b : Selection) (h : classify consec aStart aEnd false b = .absorbIntoEmpty) :
    False := by
  dsimp only [classify] at h
  split_ifs at h <;> simp_all

theorem innerLoop_le (consec : Bool) (sels : List Selection) (i : Nat) :
    ∀ (j : Nat) (st : MergeState), st.aStart.isBeforeOrEqual st.aEnd = true →
      ((innerLoop consec sels i j st).aStart).isBeforeOrEqual
        ((innerLoop consec sels i j st).aEnd) = true := by
  intro j st
  induction j, st using innerLoop.induct consec sels i with
  | case1 j st h hig ih =>
    intro hle
    rw [innerLoop]
    simp only [dif_pos h, dif_pos hig]
    exact ih hle
  | case2 j st h hig hcl ih =>
    intro hle
    rw [innerLoop]
    simp only [dif_pos h, dif_neg hig, hcl]
    exact ih hle
  | case3 j st h hig hcl ih =>
    intro hle
    rw [innerLoop]
    simp only [dif_pos h, dif_neg hig, hcl]
    exact ih hle
  | case4 j st h hig hcl ih =>
    intro hle
    rw [innerLoop]
    simp only [dif_pos h, dif_neg hig, hcl]
    exact ih (Selection.start_isBeforeOrEqual_endPos _)
  | case5 j st h hig hcl ih =>
    intro hle
    rw [innerLoop]
    simp only [dif_pos h, dif_neg hig, hcl]
    exact ih hle
  | case6 j st h hig s e hcl ih =>
    intro hle
    rw [innerLoop]
    simp only [dif_pos h, dif_neg hig, hcl]
    exact ih (classify_mergeBounds_le consec st.aStart st.aEnd st.aIsEmpty _ s e hle hcl)
  | case7 j st h =>
    intro hle
    rw [innerLoop]
    simp only [dif_neg h]
    exact hle

theorem innerLoop_strict (consec : Bool) (sels : List Selection) (i : Nat) :
    ∀ (j : Nat) (st : MergeState), st.aIsEmpty = false →
      st.aStart.isBefore st.aEnd = true →
      (innerLoop consec sels i j st).aIsEmpty = false ∧
      ((innerLoop consec sels i j st).aStart).isBefore
        ((innerLoop consec sels i j st).aEnd) = true := by
  intro j st
  induction j, st using innerLoop.induct consec sels i with
  | case1 j st h hig ih =>
    intro hemp hlt
    rw [innerLoop]
    simp only [dif_pos h, dif_pos hig]
    exact ih hemp hlt
  | case2 j st h hig hcl ih =>
    intro hemp hlt
    rw [innerLoop]
    simp only [dif_pos h, dif_neg hig, hcl]
    exact ih hemp hlt
  | case3 j st h hig hcl ih =>
    intro hemp hlt
    rw [innerLoop]
    simp only [dif_pos h, dif_neg hig, hcl]
    exact ih hemp hlt
  | case4 j st h hig hcl ih =>
    intro hemp hlt
    rw [hemp] at hcl
    exact absurd hcl (fun hc => classify_absorb_of_nonempty consec st.aStart st.aEnd _ hc)
  | case5 j st h hig hcl ih =>
    intro hemp hlt
    rw [innerLoop]
    simp only [dif_pos h, dif_neg hig, hcl]
    exact ih hemp hlt
  | case6 j st h hig s e hcl ih =>
    intro hemp hlt
    rw [innerLoop]
    simp only [dif_pos h, dif_neg hig, hcl]
    rw [hemp] at hcl
    exact ih hemp (classify_mergeBounds_strict consec st.aStart st.aEnd _ s e hlt hcl)
  | case7 j st h =>
    intro hemp hlt
    rw [innerLoop]
    simp only [dif_neg h]
    exact ⟨hemp, hlt⟩

theorem Selection.reversed_start_lt (s : Selection) (h : s.isReversed = true) :
    s.start.isBefore s.endPos = true ∧ (s.start == s.endPos) = false := by
  rcases s with ⟨a, b⟩
  simp only [Selection.isReversed] at h
  have hne : ¬(a.isBeforeOrEqual b = true) := by
    simp only [Position.isBefore_iff] at h
    simp only [Position.isBeforeOrEqual_iff]
    omega
  simp only [Selection.start, Selection.endPos, if_neg hne]
  refine ⟨h, ?_⟩
  rw [Bool.eq_false_iff]
  intro hc
  rw [Position.beq_iff] at hc
  simp only [Position.isBefore_iff] at h
  omega

theorem fromStartEnd_false_isReversed (s e : Position) :
    (fromStartEnd s e false).isReversed = e.isBefore s := rfl

theorem fromStartEnd_true_isReversed (s e : Position) :
    (fromStartEnd s e true).isReversed = s.isBefore e := rfl

theorem le_not_isBefore (x y : Position) (h : x.isBeforeOrEqual y = true) :
    y.isBefore x = false := by
  rw [Bool.eq_false_iff]
  intro hc
  simp only [Position.isBeforeOrEqual_iff] at h
  simp only [Position.isBefore_iff] at hc
  omega

/-- C5: whenever the merge engine replaces a changed selection, the
replacement is `fromStartEnd st.aStart st.aEnd a.isReversed` where `a` is the
selection at the outer index `i` — the contributing selection encountered
first in the scan order — and `st` the state after the inner scan (see
`mergeLoop`).  This theorem states that the direction of that survivor
equals `a.isReversed`, for every collection, every outer index, every
incoming consumed-set, and both entry points (`consec = false`:
`mergeOverlapping`; `consec = true`: `mergeConsecutive`). -/
theorem merge_survivor_direction (consec : Bool) (sels : List Selection)
    (i : Nat) (g : Nat → Bool) (a : Selection) :
    (fromStartEnd
      (innerLoop consec sels i (i + 1)
        { aStart := a.start, aEnd := a.endPos,
          aIsEmpty := a.start == a.endPos, changed := false, ignore := g }).aStart
      (innerLoop consec sels i (i + 1)
        { aStart := a.start, aEnd := a.endPos,
          aIsEmpty := a.start == a.endPos, changed := false, ignore := g }).aEnd
      a.isReversed).isReversed = a.isReversed := by
  cases hrev : a.isReversed with
  | false =>
    have hle := innerLoop_le consec sels i (i + 1)
      { aStart := a.start, aEnd := a.endPos,
        aIsEmpty := a.start == a.endPos, changed := false, ignore := g }
      (Selection.start_isBeforeOrEqual_endPos a)
    rw [fromStartEnd_false_isReversed]
    exact le_not_isBefore _ _ hle
  | true =>
    obtain ⟨hlt, hne⟩ := Selection.reversed_start_lt a hrev
    have hstrict := innerLoop_strict consec sels i (i + 1)
      { aStart := a.start, aEnd := a.endPos,
        aIsEmpty := a.start == a.endPos, changed := false, ignore := g }
      hne hlt
    rw [fromStartEnd_true_isReversed]
    exact hstrict.2

/-! ## Infrastructure for the sorted-idempotence proof (claim C2)

`merge false` on a collection sorted by start position is idempotent.  The
proof shows that the output of one pass is *quiescent* — every pair of
output selections is skip-classified — and that a pass over a quiescent
collection changes nothing.  Quiescence of the output is established by a
loop invariant: an output selection `x` relates to every surviving later
input by `RelOut x`, the current pass's state relates to all earlier outputs
by `Wst`, and both relations are maintained by every absorption step. -/

/-- The pair relation "the inner scan takes no action": selection `y`,
scanned in a state holding exactly `x`'s bounds, is skipped. -/
def skipRel (x y : Selection) : Prop :=
  classify false x.start x.endPos (x.start == x.endPos) y = .skip

/-- A collection on which `merge false` is a no-op pass. -/
def Quiescent (l : List Selection) : Prop := List.Pairwise skipRel l

/-- A collection sorted by start position, as `Selections.sort` produces. -/
abbrev Sorted (l : List Selection) : Prop :=
  List.Pairwise (fun a b => a.start.isBeforeOrEqual b.start = true) l

/-- The geometric relation between an already-emitted output selection `x`
and a not-yet-consumed later input `b` (for sorted runs): an empty `x`
coincides with no later empty selection and lies strictly before every
later non-empty one; a non-empty `x` has every later non-empty selection
either at-or-after its end or strictly inside it. -/
def RelOut (x b : Selection) : Prop :=
  (x.start = x.endPos ∧ b.start = b.endPos ∧ b.start ≠ x.start) ∨
  (x.start = x.endPos ∧ b.start ≠ b.endPos ∧ x.start.isBefore b.start = true) ∨
  (x.start ≠ x.endPos ∧ b.start = b.endPos) ∨
  (x.start ≠ x.endPos ∧ b.start ≠ b.endPos ∧
    (x.endPos.isBeforeOrEqual b.start = true ∨
      (x.start.isBefore b.start = true ∧ b.endPos.isBefore x.endPos = true)))

/-- `RelOut` between an emitted output selection `x` and the bounds `(S, E)`
of the evolving state of a later outer iteration. -/
def Wst (x : Selection) (S E : Position) : Prop :=
  (x.start = x.endPos ∧ S = E ∧ S ≠ x.start) ∨
  (x.start = x.endPos ∧ S ≠ E ∧ x.start.isBefore S = true) ∨
  (x.start ≠ x.endPos ∧ S = E) ∨
  (x.start ≠ x.endPos ∧ S ≠ E ∧
    (x.endPos.isBeforeOrEqual S = true ∨
      (x.start.isBefore S = true ∧ E.isBefore x.endPos = true)))

/-- The state is geometrically well-formed: ordered bounds, and the
`aIsEmpty` flag agreeing with the bounds. -/
def GOODst (st : MergeState) : Prop :=
  st.aStart.isBeforeOrEqual st.aEnd = true ∧ st.aIsEmpty = (st.aStart == st.aEnd)

/-- `aStart` is a lower bound on the start of every not-yet-consumed later
selection. -/
def ALB (sels : List Selection) (i : Nat) (st : MergeState) : Prop :=
  ∀ (k : Nat) (hk : k < sels.length), i < k → st.ignore k = false →
    st.aStart.isBeforeOrEqual ((sels.get ⟨k, hk⟩).start) = true

/-- Prefix quiescence: every not-yet-consumed selection strictly between `i`
and `j` is skip-classified against the current state. -/
def PQ (sels : List Selection) (i j : Nat) (st : MergeState) : Prop :=
  ∀ (k : Nat) (hk : k < sels.length), i < k → k < j → st.ignore k = false →
    classify false st.aStart st.aEnd st.aIsEmpty (sels.get ⟨k, hk⟩) = .skip

/-- `RelOut x` holds of every not-yet-consumed selection after `i`. -/
def RelSurv (sels : List Selection) (i : Nat) (g : Nat → Bool) (x : Selection) :
    Prop :=
  ∀ (k : Nat) (hk : k < sels.length), i < k → g k = false →
    RelOut x (sels.get ⟨k, hk⟩)

theorem isBefore_of_not_isBeforeOrEqual (x y : Position)
    (h : ¬(x.isBeforeOrEqual y = true)) : y.isBefore x = true := by
  simp only [Position.isBeforeOrEqual_iff] at h
  simp only [Position.isBefore_iff]
  omega

theorem goodst_cases (st : MergeState) (hg : GOODst st) :
    (st.aIsEmpty = true ∧ st.aStart = st.aEnd) ∨
      (st.aIsEmpty = false ∧ st.aStart ≠ st.aEnd) := by
  obtain ⟨-, hsync⟩ := hg
  cases hemp : st.aIsEmpty
  · rw [hemp] at hsync
    exact Or.inr ⟨rfl, beq_eq_false_iff_ne.mp hsync.symm⟩
  · rw [hemp] at hsync
    exact Or.inl ⟨rfl, beq_iff_eq.mp hsync.symm⟩

theorem classify_absorb_inv (aStart aEnd : Position) (aIsEmpty : Bool)
    (b : Selection)
    (h : classify false aStart aEnd aIsEmpty b = .absorbIntoEmpty) :
    aIsEmpty = true ∧ (b.start == b.endPos) = false ∧
    b.start.isBeforeOrEqual aStart = true := by
  dsimp only [classify] at h
  split_ifs at h <;> simp_all

theorem classify_mergeBounds_inv (aStart aEnd : Position) (aIsEmpty : Bool)
    (b : Selection) (s e : Position)
    (h : classify false aStart aEnd aIsEmpty b = .mergeBounds s e) :
    aIsEmpty = false ∧
    ((s = b.start ∧ e = b.endPos ∧ b.start.isBeforeOrEqual aStart = true ∧
        aStart.isBefore b.endPos = true ∧ aEnd.isBeforeOrEqual b.endPos = true) ∨
      (s = b.start ∧ e = aEnd ∧ b.start.isBeforeOrEqual aStart = true ∧
        aStart.isBefore b.endPos = true ∧ b.endPos.isBefore aEnd = true) ∨
      (s = aStart ∧ e = b.endPos ∧ b.start.isBefore aEnd = true ∧
        aEnd.isBeforeOrEqual b.endPos = true)) := by
  have hemp : aIsEmpty = false := by
    cases hemp : aIsEmpty
    · rfl
    · rw [hemp] at h
      dsimp only [classify] at h
      split_ifs at h <;> simp_all
  rw [hemp] at h
  refine ⟨hemp, ?_⟩
  dsimp only [classify] at h
  simp only [Bool.false_eq_true, if_false] at h
  split_ifs at h with hA hB hC hD
  all_goals simp at h
  all_goals obtain ⟨rfl, rfl⟩ := h
  · simp only [Bool.false_and, Bool.or_false, Bool.and_eq_true] at hA
    exact Or.inl ⟨rfl, rfl, hA.1, hA.2, hB⟩
  · simp only [Bool.false_and, Bool.or_false, Bool.and_eq_true] at hA
    exact Or.inr (Or.inl ⟨rfl, rfl, hA.1, hA.2,
      isBefore_of_not_isBeforeOrEqual _ _ hB⟩)
  · simp only [Bool.false_and, Bool.or_false, Bool.and_eq_true] at hD
    exact Or.inr (Or.inr ⟨rfl, rfl, hD.1, hD.2⟩)


theorem wst_empty_lt (x : Selection) (S E : Position)
    (hx : x.start = x.endPos) (hse : S ≠ E) (hw : Wst x S E) :
    x.start.isBefore S = true := by
  rcases hw with ⟨h1, h2, h3⟩ | ⟨h1, h2, h3⟩ | ⟨h1, h2⟩ | ⟨h1, h2, h3⟩ <;>
    first
      | exact h3
      | (exact absurd hx h1)
      | (exact absurd h2 (by simp [hse]))
      | (exact absurd h2 hse)

theorem wst_empty_ne (x : Selection) (S E : Position)
    (hx : x.start = x.endPos) (hse : S = E) (hw : Wst x S E) :
    S ≠ x.start := by
  rcases hw with ⟨h1, h2, h3⟩ | ⟨h1, h2, h3⟩ | ⟨h1, h2⟩ | ⟨h1, h2, h3⟩ <;>
    first
      | exact h3
      | (exact absurd hx h1)
      | (exact absurd hse h2)

theorem wst_nonempty_facts (x : Selection) (S E : Position)
    (hx : x.start ≠ x.endPos) (hw : Wst x S E) (hse : S ≠ E) :
    x.endPos.isBeforeOrEqual S = true ∨
      (x.start.isBefore S = true ∧ E.isBefore x.endPos = true) := by
  rcases hw with ⟨h1, h2, h3⟩ | ⟨h1, h2, h3⟩ | ⟨h1, h2⟩ | ⟨h1, h2, h3⟩ <;>
    first
      | exact h3
      | (exact absurd h1 hx)
      | (exact absurd h2 hse)

theorem relout_empty_nonempty (x b : Selection)
    (hx : x.start = x.endPos) (hb : b.start ≠ b.endPos) (hr : RelOut x b) :
    x.start.isBefore b.start = true := by
  rcases hr with ⟨h1, h2, h3⟩ | ⟨h1, h2, h3⟩ | ⟨h1, h2⟩ | ⟨h1, h2, h3⟩ <;>
    first
      | exact h3
      | (exact absurd hx h1)
      | (exact absurd h2 hb)

theorem relout_nonempty_facts (x b : Selection)
    (hx : x.start ≠ x.endPos) (hb : b.start ≠ b.endPos) (hr : RelOut x b) :
    x.endPos.isBeforeOrEqual b.start = true ∨
      (x.start.isBefore b.start = true ∧ b.endPos.isBefore x.endPos = true) := by
  rcases hr with ⟨h1, h2, h3⟩ | ⟨h1, h2, h3⟩ | ⟨h1, h2⟩ | ⟨h1, h2, h3⟩ <;>
    first
      | exact h3
      | (exact absurd h1 hx)
      | (exact absurd h2 hb)

theorem w_step_mergeBounds (x b : Selection) (S E s e : Position)
    (hw : Wst x S E) (hr : RelOut x b)
    (hle : S.isBeforeOrEqual E = true) (hSE : S ≠ E)
    (hb : b.start.isBeforeOrEqual b.endPos = true)
    (hinv : (s = b.start ∧ e = b.endPos ∧ b.start.isBeforeOrEqual S = true ∧
        S.isBefore b.endPos = true ∧ E.isBeforeOrEqual b.endPos = true) ∨
      (s = b.start ∧ e = E ∧ b.start.isBeforeOrEqual S = true ∧
        S.isBefore b.endPos = true ∧ b.endPos.isBefore E = true) ∨
      (s = S ∧ e = b.endPos ∧ b.start.isBefore E = true ∧
        E.isBeforeOrEqual b.endPos = true)) :
    Wst x s e := by
  have hbne : b.start ≠ b.endPos := by
    rcases hinv with ⟨-, -, h1, h2, h3⟩ | ⟨-, -, h1, h2, h3⟩ | ⟨-, -, h1, h2⟩ <;>
      (simp only [ne_eq, Position.isBefore_iff, Position.isBeforeOrEqual_iff,
        Position.eq_iff] at *
       omega)
  have hsene : s ≠ e := by
    rcases hinv with ⟨rfl, rfl, h1, h2, h3⟩ | ⟨rfl, rfl, h1, h2, h3⟩ |
      ⟨rfl, rfl, h1, h2⟩ <;>
      (simp only [ne_eq, Position.isBefore_iff, Position.isBeforeOrEqual_iff,
        Position.eq_iff] at *
       omega)
  by_cases hx : x.start = x.endPos
  · refine Or.inr (Or.inl ⟨hx, hsene, ?_⟩)
    have hes := wst_empty_lt x S E hx hSE hw
    have her := relout_empty_nonempty x b hx hbne hr
    rcases hinv with ⟨rfl, rfl, h1, h2, h3⟩ | ⟨rfl, rfl, h1, h2, h3⟩ |
      ⟨rfl, rfl, h1, h2⟩
    · exact her
    · exact her
    · exact hes
  · refine Or.inr (Or.inr (Or.inr ⟨hx, hsene, ?_⟩))
    have hwd := wst_nonempty_facts x S E hx hw hSE
    have hrd := relout_nonempty_facts x b hx hbne hr
    rcases hinv with ⟨rfl, rfl, h1, h2, h3⟩ | ⟨rfl, rfl, h1, h2, h3⟩ |
      ⟨rfl, rfl, h1, h2⟩
    · exact hrd
    · simp only [ne_eq, Position.isBefore_iff, Position.isBeforeOrEqual_iff,
        Position.eq_iff] at *
      omega
    · simp only [ne_eq, Position.isBefore_iff, Position.isBeforeOrEqual_iff,
        Position.eq_iff] at *
      omega

theorem w_of_rel (x b : Selection) (h : RelOut x b) : Wst x b.start b.endPos := by
  rcases h with ⟨h1, h2, h3⟩ | ⟨h1, h2, h3⟩ | ⟨h1, h2⟩ | ⟨h1, h2, h3⟩
  · simp only [Wst, ne_eq, Position.eq_iff] at *
    omega
  · simp only [Wst, ne_eq, Position.isBefore_iff, Position.eq_iff] at *
    omega
  · simp only [Wst, ne_eq, Position.eq_iff] at *
    omega
  · simp only [Wst, ne_eq, Position.isBefore_iff, Position.isBeforeOrEqual_iff,
      Position.eq_iff] at *
    omega

theorem skip_of_wst (x y : Selection) (S E : Position)
    (hw : Wst x S E) (hys : y.start = S) (hye : y.endPos = E) :
    skipRel x y := by
  have hx := Selection.start_isBeforeOrEqual_endPos x
  subst hys hye
  unfold skipRel
  by_cases hxe : x.start = x.endPos
  · have c1 : (x.start == x.endPos) = true := beq_iff_eq.mpr hxe
    by_cases hye : y.start = y.endPos
    · have hne := wst_empty_ne x y.start y.endPos hxe hye hw
      dsimp only [classify]
      rw [if_pos c1, if_pos (beq_iff_eq.mpr hye),
        if_neg (by simp only [beq_iff_eq]; exact hne)]
    · have hlt := wst_empty_lt x y.start y.endPos hxe hye hw
      have hc : y.start.isBeforeOrEqual x.start = false := by
        simp only [Position.isBefore_iff] at hlt
        rw [Bool.eq_false_iff]
        simp only [ne_eq, Position.isBeforeOrEqual_iff]
        omega
      dsimp only [classify]
      rw [if_pos c1, if_neg (by simp [beq_eq_false_iff_ne.mpr hye]),
        if_neg (by simp [hc])]
  · have c1 : (x.start == x.endPos) = false := beq_eq_false_iff_ne.mpr hxe
    by_cases hye : y.start = y.endPos
    · have hc1 : ¬((x.start.isAfterOrEqual y.start &&
          (x.start.isBefore y.endPos || (false && x.start == y.endPos))) = true) := by
        simp only [Bool.and_eq_true, Bool.or_eq_true, Bool.false_and,
          Bool.or_false, Position.isBefore_iff, Position.isAfterOrEqual_iff,
          Position.eq_iff] at *
        omega
      have hc2 : ¬(((x.endPos.isAfter y.start || (false && x.endPos == y.start)) &&
          x.endPos.isBeforeOrEqual y.endPos) = true) := by
        simp only [Bool.and_eq_true, Bool.or_eq_true, Bool.false_and,
          Bool.or_false, Position.isBefore_iff, Position.isAfter_iff,
          Position.isBeforeOrEqual_iff, Position.eq_iff] at *
        omega
      dsimp only [classify]
      rw [if_neg (by simp [c1]), if_neg hc1, if_neg hc2]
    · have hwd := wst_nonempty_facts x y.start y.endPos hxe hw hye
      have hc1 : ¬((x.start.isAfterOrEqual y.start &&
          (x.start.isBefore y.endPos || (false && x.start == y.endPos))) = true) := by
        simp only [Bool.and_eq_true, Bool.or_eq_true, Bool.false_and,
          Bool.or_false, ne_eq, Position.isBefore_iff,
          Position.isAfterOrEqual_iff, Position.isBeforeOrEqual_iff,
          Position.eq_iff] at *
        omega
      have hc2 : ¬(((x.endPos.isAfter y.start || (false && x.endPos == y.start)) &&
          x.endPos.isBeforeOrEqual y.endPos) = true) := by
        simp only [Bool.and_eq_true, Bool.or_eq_true, Bool.false_and,
          Bool.or_false, ne_eq, Position.isBefore_iff, Position.isAfter_iff,
          Position.isBeforeOrEqual_iff, Position.eq_iff] at *
        omega
      dsimp only [classify]
      rw [if_neg (by simp [c1]), if_neg hc1, if_neg hc2]

theorem classify_skip_nonempty_inv (S E : Position) (b : Selection)
    (h : classify false S E false b = .skip) :
    ¬((S.isAfterOrEqual b.start &&
        (S.isBefore b.endPos || (false && S == b.endPos))) = true) ∧
    ¬(((E.isAfter b.start || (false && E == b.start)) &&
        E.isBeforeOrEqual b.endPos) = true) := by
  dsimp only [classify] at h
  simp only [Bool.false_eq_true, if_false] at h
  by_cases hc1 : (S.isAfterOrEqual b.start &&
      (S.isBefore b.endPos || (false && S == b.endPos))) = true
  · rw [if_pos hc1] at h
    split_ifs at h <;> simp at h
  · rw [if_neg hc1] at h
    by_cases hc2 : ((E.isAfter b.start || (false && E == b.start)) &&
        E.isBeforeOrEqual b.endPos) = true
    · rw [if_pos hc2] at h
      simp at h
    · exact ⟨hc1, hc2⟩

theorem classify_skip_empty_inv (S E : Position) (b : Selection)
    (h : classify false S E true b = .skip) :
    (b.start = b.endPos → b.start ≠ S) ∧
    (b.start ≠ b.endPos →
      ¬((b.start.isBeforeOrEqual S && b.endPos.isAfterOrEqual b.start) = true)) := by
  dsimp only [classify] at h
  rw [if_pos rfl] at h
  by_cases hbb : b.start = b.endPos
  · rw [if_pos (beq_iff_eq.mpr hbb)] at h
    by_cases hbs : b.start = S
    · rw [if_pos (beq_iff_eq.mpr hbs)] at h
      simp at h
    · exact ⟨fun _ => hbs, fun hne => absurd hbb hne⟩
  · rw [if_neg (by simp only [beq_iff_eq]; exact hbb)] at h
    by_cases habs : (b.start.isBeforeOrEqual S && b.endPos.isAfterOrEqual b.start) = true
    · rw [if_pos habs] at h
      simp at h
    · exact ⟨fun hb => absurd hb hbb, fun _ => habs⟩

theorem classify_skip_nonempty_intro (S E : Position) (b : Selection)
    (h1 : ¬((S.isAfterOrEqual b.start &&
        (S.isBefore b.endPos || (false && S == b.endPos))) = true))
    (h2 : ¬(((E.isAfter b.start || (false && E == b.start)) &&
        E.isBeforeOrEqual b.endPos) = true)) :
    classify false S E false b = .skip := by
  dsimp only [classify]
  simp only [Bool.false_eq_true, if_false]
  rw [if_neg h1, if_neg h2]

theorem rel_of_skip (b y : Selection) (S E : Position) (emp : Bool)
    (hsync : (emp = true ∧ S = E) ∨ (emp = false ∧ S ≠ E))
    (halb : S.isBeforeOrEqual b.start = true)
    (hys : y.start = S) (hye : y.endPos = E)
    (h : classify false S E emp b = .skip) :
    RelOut y b := by
  have hb := Selection.start_isBeforeOrEqual_endPos b
  subst hys hye
  rcases hsync with ⟨hemp, hee⟩ | ⟨hemp, hee⟩ <;> subst hemp
  · obtain ⟨hi1, hi2⟩ := classify_skip_empty_inv _ _ b h
    by_cases hbb : b.start = b.endPos
    · exact Or.inl ⟨hee, hbb, hi1 hbb⟩
    · refine Or.inr (Or.inl ⟨hee, hbb, ?_⟩)
      have := hi2 hbb
      simp only [Bool.and_eq_true, Position.isBefore_iff,
        Position.isBeforeOrEqual_iff, Position.isAfterOrEqual_iff,
        not_and, not_or] at this ⊢
      simp only [Position.isBeforeOrEqual_iff] at hb
      omega
  · obtain ⟨hi1, hi2⟩ := classify_skip_nonempty_inv _ _ b h
    by_cases hbb : b.start = b.endPos
    · exact Or.inr (Or.inr (Or.inl ⟨hee, hbb⟩))
    · refine Or.inr (Or.inr (Or.inr ⟨hee, hbb, ?_⟩))
      simp only [Bool.and_eq_true, Bool.or_eq_true, Bool.false_and,
        Bool.or_false, ne_eq, Position.isBefore_iff,
        Position.isBeforeOrEqual_iff, Position.isAfter_iff,
        Position.isAfterOrEqual_iff, Position.beq_iff, Position.eq_iff,
        not_and, not_or] at hi1 hi2 halb hb hee hbb ⊢
      omega

theorem pq_after_absorb (b c : Selection) (S E : Position)
    (hold : classify false S E true c = .skip)
    (hsort : c.start.isBeforeOrEqual b.start = true)
    (hguard : b.start.isBeforeOrEqual S = true) :
    classify false b.start b.endPos false c = .skip := by
  have hb := Selection.start_isBeforeOrEqual_endPos b
  have hc := Selection.start_isBeforeOrEqual_endPos c
  obtain ⟨hi1, hi2⟩ := classify_skip_empty_inv _ _ c hold
  apply classify_skip_nonempty_intro
  · by_cases hcc : c.start = c.endPos
    · simp only [Bool.and_eq_true, Bool.or_eq_true, Bool.false_and,
        Bool.or_false, Position.isBefore_iff, Position.isAfterOrEqual_iff,
        Position.eq_iff, Position.isBeforeOrEqual_iff] at *
      omega
    · have := hi2 hcc
      simp only [Bool.and_eq_true, Bool.or_eq_true, Bool.false_and,
        Bool.or_false, ne_eq, Position.isBefore_iff,
        Position.isAfterOrEqual_iff, Position.eq_iff,
        Position.isBeforeOrEqual_iff, not_and, not_or] at *
      omega
  · by_cases hcc : c.start = c.endPos
    · simp only [Bool.and_eq_true, Bool.or_eq_true, Bool.false_and,
        Bool.or_false, Position.isBefore_iff, Position.isAfter_iff,
        Position.eq_iff, Position.isBeforeOrEqual_iff] at *
      omega
    · have := hi2 hcc
      simp only [Bool.and_eq_true, Bool.or_eq_true, Bool.false_and,
        Bool.or_false, ne_eq, Position.isBefore_iff, Position.isAfter_iff,
        Position.isAfterOrEqual_iff, Position.eq_iff,
        Position.isBeforeOrEqual_iff, not_and, not_or] at *
      omega

theorem setIgnore_false (g : Nat → Bool) (j k : Nat)
    (h : setIgnore g j k = false) : g k = false := by
  unfold setIgnore at h
  split at h
  · exact absurd h (by simp)
  · exact h

theorem setIgnore_self (g : Nat → Bool) (j : Nat) : setIgnore g j j = true := by
  simp [setIgnore]

theorem setIgnore_mono (g : Nat → Bool) (j k : Nat) (h : g k = true) :
    setIgnore g j k = true := by
  unfold setIgnore
  split <;> simp [h]

theorem Position.le_trans_b (x y z : Position)
    (h1 : x.isBeforeOrEqual y = true) (h2 : y.isBeforeOrEqual z = true) :
    x.isBeforeOrEqual z = true := by
  simp only [Position.isBeforeOrEqual_iff] at *
  omega

theorem Position.le_refl_b (x : Position) : x.isBeforeOrEqual x = true := by
  rw [Position.isBeforeOrEqual_iff]
  omega

theorem Position.isBefore_of_le_ne (x y : Position)
    (h1 : x.isBeforeOrEqual y = true) (h2 : x ≠ y) : x.isBefore y = true := by
  simp only [Position.isBeforeOrEqual_iff] at h1
  simp only [ne_eq, Position.eq_iff] at h2
  simp only [Position.isBefore_iff]
  omega

theorem Position.ne_of_isBefore (x y : Position) (h : x.isBefore y = true) :
    x ≠ y := by
  simp only [Position.isBefore_iff] at h
  simp only [ne_eq, Position.eq_iff]
  omega

theorem mergeBounds_start_le (S E s e : Position) (b : Selection)
    (hinv : (s = b.start ∧ e = b.endPos ∧ b.start.isBeforeOrEqual S = true ∧
        S.isBefore b.endPos = true ∧ E.isBeforeOrEqual b.endPos = true) ∨
      (s = b.start ∧ e = E ∧ b.start.isBeforeOrEqual S = true ∧
        S.isBefore b.endPos = true ∧ b.endPos.isBefore E = true) ∨
      (s = S ∧ e = b.endPos ∧ b.start.isBefore E = true ∧
        E.isBeforeOrEqual b.endPos = true)) :
    s.isBeforeOrEqual S = true := by
  rcases hinv with ⟨rfl, -, h1, -, -⟩ | ⟨rfl, -, h1, -, -⟩ | ⟨rfl, -, -, -⟩
  · exact h1
  · exact h1
  · exact Position.le_refl_b _

theorem pq_of_same_bounds {sels : List Selection} {i j : Nat}
    {st st' : MergeState}
    (hS : st'.aStart = st.aStart) (hE : st'.aEnd = st.aEnd)
    (hF : st'.aIsEmpty = st.aIsEmpty)
    (hI : ∀ k, st'.ignore k = false → st.ignore k = false)
    (hIj : st'.ignore j = true)
    (hpq : PQ sels i j st) : PQ sels i (j + 1) st' := by
  intro k hk hik hkj hgk
  rcases Nat.lt_succ_iff_lt_or_eq.mp hkj with h' | rfl
  · rw [hS, hE, hF]
    exact hpq k hk hik h' (hI k hgk)
  · rw [hIj] at hgk
    exact Bool.noConfusion hgk

theorem pq_extend_skip {sels : List Selection} {i j : Nat} {st : MergeState}
    (h : j < sels.length) (hpq : PQ sels i j st)
    (hcl : classify false st.aStart st.aEnd st.aIsEmpty (sels.get ⟨j, h⟩) =
      .skip) : PQ sels i (j + 1) st := by
  intro k hk hik hkj hgk
  rcases Nat.lt_succ_iff_lt_or_eq.mp hkj with h' | rfl
  · exact hpq k hk hik h' hgk
  · exact hcl

theorem pq_extend_ignored {sels : List Selection} {i j : Nat} {st : MergeState}
    (hpq : PQ sels i j st) (hig : st.ignore j = true) :
    PQ sels i (j + 1) st := by
  intro k hk hik hkj hgk
  rcases Nat.lt_succ_iff_lt_or_eq.mp hkj with h' | rfl
  · exact hpq k hk hik h' hgk
  · rw [hig] at hgk
    exact Bool.noConfusion hgk

theorem alb_of_le {sels : List Selection} {i : Nat} {st st' : MergeState}
    (hle : st'.aStart.isBeforeOrEqual st.aStart = true)
    (hI : ∀ k, st'.ignore k = false → st.ignore k = false)
    (halb : ALB sels i st) : ALB sels i st' := by
  intro k hk hik hgk
  exact Position.le_trans_b _ _ _ hle (halb k hk hik (hI k hgk))

theorem relsurv_of_subset {sels : List Selection} {i : Nat} {g g' : Nat → Bool}
    (hI : ∀ k, g' k = false → g k = false) (x : Selection)
    (h : RelSurv sels i g x) : RelSurv sels i g' x := by
  intro k hk hik hgk
  exact h k hk hik (hI k hgk)

theorem innerLoop_main (sels : List Selection)
    (hsort : ∀ (p q : Nat) (hp : p < sels.length) (hq : q < sels.length),
      p ≤ q → ((sels.get ⟨p, hp⟩).start).isBeforeOrEqual
        ((sels.get ⟨q, hq⟩).start) = true)
    (i : Nat) (olds : List Selection) :
    ∀ (j : Nat) (st : MergeState), i < j →
      GOODst st → ALB sels i st → PQ sels i j st →
      (∀ x ∈ olds, Wst x st.aStart st.aEnd) →
      (∀ x ∈ olds, RelSurv sels i st.ignore x) →
      GOODst (innerLoop false sels i j st) ∧
      ALB sels i (innerLoop false sels i j st) ∧
      PQ sels i sels.length (innerLoop false sels i j st) ∧
      (∀ k, st.ignore k = true → (innerLoop false sels i j st).ignore k = true) ∧
      (∀ x ∈ olds, Wst x (innerLoop false sels i j st).aStart
        (innerLoop false sels i j st).aEnd) ∧
      (st.changed = true → (innerLoop false sels i j st).changed = true) ∧
      ((innerLoop false sels i j st).changed = false →
        (innerLoop false sels i j st).aStart = st.aStart ∧
        (innerLoop false sels i j st).aEnd = st.aEnd ∧
        (innerLoop false sels i j st).aIsEmpty = st.aIsEmpty) := by
  intro j st
  induction j, st using innerLoop.induct false sels i with
  | case1 j st h hig ih =>
    intro hij hgood halb hpq hwolds hrs
    rw [innerLoop]
    simp only [dif_pos h, dif_pos hig]
    exact ih (Nat.lt_succ_of_lt hij) hgood halb (pq_extend_ignored hpq hig)
      hwolds hrs
  | case2 j st h hig hcl ih =>
    intro hij hgood halb hpq hwolds hrs
    rw [innerLoop]
    simp only [dif_pos h, dif_neg hig, hcl]
    exact ih (Nat.lt_succ_of_lt hij) hgood halb (pq_extend_skip h hpq hcl)
      hwolds hrs
  | case3 j st h hig hcl ih =>
    intro hij hgood halb hpq hwolds hrs
    rw [innerLoop]
    simp only [dif_pos h, dif_neg hig, hcl]
    obtain ⟨hc1, hc2, hc3, hc4, hc5, hc6, hc7⟩ := ih (Nat.lt_succ_of_lt hij)
      hgood
      (@alb_of_le sels i st _ (Position.le_refl_b _)
        (fun k => setIgnore_false _ j k) halb)
      (@pq_of_same_bounds sels i j st _ rfl rfl rfl
        (fun k => setIgnore_false _ j k) (setIgnore_self _ j) hpq)
      hwolds
      (fun x hx => relsurv_of_subset (fun k => setIgnore_false _ j k) x
        (hrs x hx))
    refine ⟨hc1, hc2, hc3, ?_, hc5, fun _ => hc6 rfl, ?_⟩
    · intro k hk
      exact hc4 k (setIgnore_mono _ j k hk)
    · intro hf
      exact absurd (hc6 rfl) (by rw [hf]; simp)
  | case4 j st h hig hcl ih =>
    intro hij hgood halb hpq hwolds hrs
    have hig' : st.ignore j = false := by
      rw [Bool.not_eq_true] at hig
      exact hig
    obtain ⟨hemp, hbne, hbs⟩ := classify_absorb_inv st.aStart st.aEnd
      st.aIsEmpty _ hcl
    have hb := Selection.start_isBeforeOrEqual_endPos (sels.get ⟨j, h⟩)
    rw [innerLoop]
    simp only [dif_pos h, dif_neg hig, hcl]
    obtain ⟨hc1, hc2, hc3, hc4, hc5, hc6, hc7⟩ := ih (Nat.lt_succ_of_lt hij)
      ⟨hb, hbne.symm⟩
      (@alb_of_le sels i st _ (by exact hbs)
        (fun k => setIgnore_false _ j k) halb)
      (by
        intro k hk hik hkj hgk
        have hgk' := setIgnore_false _ j k hgk
        rcases Nat.lt_succ_iff_lt_or_eq.mp hkj with h' | rfl
        · have hold := hpq k hk hik h' hgk'
          rw [hemp] at hold
          exact pq_after_absorb (sels.get ⟨j, h⟩) (sels.get ⟨k, hk⟩)
            st.aStart st.aEnd hold (hsort k j hk h (Nat.le_of_lt h')) hbs
        · simp only [setIgnore_self] at hgk
          exact Bool.noConfusion hgk)
      (fun x hx => w_of_rel x _ (hrs x hx j h hij hig'))
      (fun x hx => relsurv_of_subset (fun k => setIgnore_false _ j k) x
        (hrs x hx))
    refine ⟨hc1, hc2, hc3, ?_, hc5, fun _ => hc6 rfl, ?_⟩
    · intro k hk
      exact hc4 k (setIgnore_mono _ j k hk)
    · intro hf
      exact absurd (hc6 rfl) (by rw [hf]; simp)
  | case5 j st h hig hcl ih =>
    intro hij hgood halb hpq hwolds hrs
    rw [innerLoop]
    simp only [dif_pos h, dif_neg hig, hcl]
    obtain ⟨hc1, hc2, hc3, hc4, hc5, hc6, hc7⟩ := ih (Nat.lt_succ_of_lt hij)
      hgood
      (@alb_of_le sels i st _ (Position.le_refl_b _)
        (fun k => setIgnore_false _ j k) halb)
      (@pq_of_same_bounds sels i j st _ rfl rfl rfl
        (fun k => setIgnore_false _ j k) (setIgnore_self _ j) hpq)
      hwolds
      (fun x hx => relsurv_of_subset (fun k => setIgnore_false _ j k) x
        (hrs x hx))
    refine ⟨hc1, hc2, hc3, ?_, hc5, hc6, hc7⟩
    · intro k hk
      exact hc4 k (setIgnore_mono _ j k hk)
  | case6 j st h hig s e hcl ih =>
    intro hij hgood halb hpq hwolds hrs
    have hig' : st.ignore j = false := by
      rw [Bool.not_eq_true] at hig
      exact hig
    obtain ⟨hemp, hinv⟩ := classify_mergeBounds_inv st.aStart st.aEnd
      st.aIsEmpty _ s e hcl
    have hb := Selection.start_isBeforeOrEqual_endPos (sels.get ⟨j, h⟩)
    have hSE : st.aStart ≠ st.aEnd := by
      have := hgood.2
      rw [hemp] at this
      exact beq_eq_false_iff_ne.mp this.symm
    have hlt : st.aStart.isBefore st.aEnd = true :=
      Position.isBefore_of_le_ne _ _ hgood.1 hSE
    have hstrict : s.isBefore e = true := by
      rw [hemp] at hcl
      exact classify_mergeBounds_strict false st.aStart st.aEnd _ s e hlt hcl
    have hse : s ≠ e := Position.ne_of_isBefore _ _ hstrict
    have hle' : s.isBeforeOrEqual e = true :=
      classify_mergeBounds_le false st.aStart st.aEnd st.aIsEmpty _ s e
        hgood.1 hcl
    rw [innerLoop]
    simp only [dif_pos h, dif_neg hig, hcl]
    obtain ⟨hc1, hc2, hc3, hc4, hc5, hc6, hc7⟩ := ih
      (Nat.lt_succ_self i)
      ⟨hle', by
        show st.aIsEmpty = (s == e)
        rw [hemp]
        exact (beq_eq_false_iff_ne.mpr hse).symm⟩
      (@alb_of_le sels i st _
        (by exact mergeBounds_start_le st.aStart st.aEnd s e _ hinv)
        (fun k => setIgnore_false _ j k) halb)
      (by
        intro k hk hik hkj hgk
        omega)
      (fun x hx => w_step_mergeBounds x _ st.aStart st.aEnd s e (hwolds x hx)
        (hrs x hx j h hij hig') hgood.1 hSE hb hinv)
      (fun x hx => relsurv_of_subset (fun k => setIgnore_false _ j k) x
        (hrs x hx))
    refine ⟨hc1, hc2, hc3, ?_, hc5, fun _ => hc6 rfl, ?_⟩
    · intro k hk
      exact hc4 k (setIgnore_mono _ j k hk)
    · intro hf
      exact absurd (hc6 rfl) (by rw [hf]; simp)
  | case7 j st h =>
    intro hij hgood halb hpq hwolds hrs
    rw [innerLoop]
    simp only [dif_neg h]
    refine ⟨hgood, halb, ?_, fun k hk => hk, hwolds, fun hc => hc,
      fun _ => by simp⟩
    intro k hk hik hkj hgk
    exact hpq k hk hik (by omega) hgk

theorem fromStartEnd_start_endPos (s e : Position) (r : Bool)
    (h : s.isBeforeOrEqual e = true) :
    (fromStartEnd s e r).start = s ∧ (fromStartEnd s e r).endPos = e := by
  cases r
  · constructor
    · show Selection.start ⟨s, e⟩ = s
      simp only [Selection.start]
      rw [if_pos h]
    · show Selection.endPos ⟨s, e⟩ = e
      simp only [Selection.endPos]
      rw [if_pos h]
  · by_cases h1 : e.isBeforeOrEqual s = true
    · have he : e = s := by
        rw [Position.eq_iff]
        rw [Position.isBeforeOrEqual_iff] at h h1
        omega
      constructor
      · show Selection.start ⟨e, s⟩ = s
        simp only [Selection.start]
        rw [if_pos h1, he]
      · show Selection.endPos ⟨e, s⟩ = e
        simp only [Selection.endPos]
        rw [if_pos h1, he]
    · constructor
      · show Selection.start ⟨e, s⟩ = s
        simp only [Selection.start]
        rw [if_neg h1]
      · show Selection.endPos ⟨e, s⟩ = e
        simp only [Selection.endPos]
        rw [if_neg h1]

theorem innerLoop_skip_all (sels : List Selection) (i : Nat) :
    ∀ (j : Nat) (st : MergeState),
      (∀ (k : Nat), j ≤ k → st.ignore k = false) →
      (∀ (k : Nat) (hk : k < sels.length), j ≤ k →
        classify false st.aStart st.aEnd st.aIsEmpty (sels.get ⟨k, hk⟩) =
          .skip) →
      innerLoop false sels i j st = st := by
  intro j st
  induction j, st using innerLoop.induct false sels i with
  | case1 j st h hig ih =>
    intro hg hcls
    rw [hg j (Nat.le_refl j)] at hig
    exact Bool.noConfusion hig
  | case2 j st h hig hcl ih =>
    intro hg hcls
    rw [innerLoop]
    simp only [dif_pos h, dif_neg hig, hcl]
    exact ih (fun k hk => hg k (Nat.le_of_succ_le hk))
      (fun k hk h2 => hcls k hk (Nat.le_of_succ_le h2))
  | case3 j st h hig hcl ih =>
    intro hg hcls
    have h2 := hcls j h (Nat.le_refl j)
    rw [hcl] at h2
    exact MergeAction.noConfusion h2
  | case4 j st h hig hcl ih =>
    intro hg hcls
    have h2 := hcls j h (Nat.le_refl j)
    rw [hcl] at h2
    exact MergeAction.noConfusion h2
  | case5 j st h hig hcl ih =>
    intro hg hcls
    have h2 := hcls j h (Nat.le_refl j)
    rw [hcl] at h2
    exact MergeAction.noConfusion h2
  | case6 j st h hig s e hcl ih =>
    intro hg hcls
    have h2 := hcls j h (Nat.le_refl j)
    rw [hcl] at h2
    exact MergeAction.noConfusion h2
  | case7 j st h =>
    intro hg hcls
    rw [innerLoop, dif_neg h]

theorem mergeLoop_noop (sels : List Selection)
    (hpair : ∀ (p q : Nat) (hp : p < sels.length) (hq : q < sels.length),
      p < q → skipRel (sels.get ⟨p, hp⟩) (sels.get ⟨q, hq⟩)) :
    ∀ (n i : Nat) (g : Nat → Bool) (acc : List Selection),
      (∀ k, g k = false) → sels.length - i ≤ n →
      mergeLoop false sels i g acc = acc ++ sels.drop i := by
  intro n
  induction n with
  | zero =>
    intro i g acc hg hn
    rw [mergeLoop, dif_neg (by omega : ¬i < sels.length),
      List.drop_eq_nil_of_le (by omega), List.append_nil]
  | succ n IH =>
    intro i g acc hg hn
    by_cases h : i < sels.length
    · have hgi : ¬(g i = true) := by
        rw [hg i]
        exact Bool.noConfusion
      rw [mergeLoop, dif_pos h, if_neg hgi]
      dsimp only
      have hnoop := innerLoop_skip_all sels i (i + 1)
        { aStart := (sels.get ⟨i, h⟩).start, aEnd := (sels.get ⟨i, h⟩).endPos,
          aIsEmpty := (sels.get ⟨i, h⟩).start == (sels.get ⟨i, h⟩).endPos,
          changed := false, ignore := g }
        (fun k _ => hg k)
        (fun k hk h2 => hpair i k h hk (by omega))
      rw [hnoop]
      show mergeLoop false sels (i + 1) g (acc ++ [sels.get ⟨i, h⟩]) =
        acc ++ sels.drop i
      rw [IH (i + 1) g (acc ++ [sels.get ⟨i, h⟩]) hg (by omega)]
      have hdrop : sels.drop i = sels.get ⟨i, h⟩ :: sels.drop (i + 1) := by
        rw [List.get_eq_getElem]
        exact List.drop_eq_getElem_cons h
      rw [hdrop, List.append_assoc, List.singleton_append]
    · rw [mergeLoop, dif_neg h, List.drop_eq_nil_of_le (by omega),
        List.append_nil]

theorem merge_of_quiescent (sels : List Selection) (hq : Quiescent sels) :
    Selections.merge false sels = sels := by
  have hpair : ∀ (p q : Nat) (hp : p < sels.length) (hq' : q < sels.length),
      p < q → skipRel (sels.get ⟨p, hp⟩) (sels.get ⟨q, hq'⟩) := by
    intro p q hp hq' hpq
    exact List.pairwise_iff_get.mp hq ⟨p, hp⟩ ⟨q, hq'⟩ hpq
  unfold Selections.merge
  rw [mergeLoop_noop sels hpair sels.length 0 (fun _ => false) []
    (fun _ => rfl) (by omega)]
  rw [List.drop_zero, List.nil_append]

theorem mergeLoop_quiescent (sels : List Selection)
    (hsort : ∀ (p q : Nat) (hp : p < sels.length) (hq : q < sels.length),
      p ≤ q → ((sels.get ⟨p, hp⟩).start).isBeforeOrEqual
        ((sels.get ⟨q, hq⟩).start) = true) :
    ∀ (n i : Nat) (g : Nat → Bool) (acc : List Selection),
      sels.length - i ≤ n →
      (∀ x ∈ acc, ∀ (k : Nat) (hk : k < sels.length), i ≤ k → g k = false →
        RelOut x (sels.get ⟨k, hk⟩)) →
      List.Pairwise skipRel acc →
      List.Pairwise skipRel (mergeLoop false sels i g acc) := by
  intro n
  induction n with
  | zero =>
    intro i g acc hn hA1 hA2
    rw [mergeLoop, dif_neg (by omega : ¬i < sels.length)]
    exact hA2
  | succ n IH =>
    intro i g acc hn hA1 hA2
    by_cases h : i < sels.length
    · by_cases hgi : g i = true
      · rw [mergeLoop, dif_pos h, if_pos hgi]
        exact IH (i + 1) g acc (by omega)
          (fun x hx k hk hik hgk => hA1 x hx k hk (by omega) hgk) hA2
      · have hgif : g i = false := by
          rw [Bool.not_eq_true] at hgi
          exact hgi
        rw [mergeLoop, dif_pos h, if_neg hgi]
        dsimp only
        set ST := innerLoop false sels i (i + 1)
          { aStart := (sels.get ⟨i, h⟩).start,
            aEnd := (sels.get ⟨i, h⟩).endPos,
            aIsEmpty := (sels.get ⟨i, h⟩).start == (sels.get ⟨i, h⟩).endPos,
            changed := false, ignore := g } with hST
        obtain ⟨hc1, hc2, hc3, hc4, hc5, hc6, hc7⟩ :=
          innerLoop_main sels hsort i acc (i + 1)
            { aStart := (sels.get ⟨i, h⟩).start,
              aEnd := (sels.get ⟨i, h⟩).endPos,
              aIsEmpty := (sels.get ⟨i, h⟩).start == (sels.get ⟨i, h⟩).endPos,
              changed := false, ignore := g }
            (Nat.lt_succ_self i)
            ⟨Selection.start_isBeforeOrEqual_endPos _, rfl⟩
            (fun k hk hik _ => hsort i k h hk (Nat.le_of_lt hik))
            (fun k hk hik hkj hgk => by omega)
            (fun x hx => w_of_rel x _ (hA1 x hx i h (Nat.le_refl i) hgif))
            (fun x hx k hk hik hgk => hA1 x hx k hk (Nat.le_of_lt hik) hgk)
        have main : ∀ (y : Selection), y.start = ST.aStart →
            y.endPos = ST.aEnd →
            List.Pairwise skipRel
              (mergeLoop false sels (i + 1) ST.ignore (acc ++ [y])) := by
          intro y hys hye
          refine IH (i + 1) ST.ignore (acc ++ [y]) (by omega) ?_ ?_
          · intro x hx k hk hik hgk
            rcases List.mem_append.mp hx with hxa | hxy
            · have hgkf : g k = false := by
                cases hgkc : g k
                · rfl
                · have h2 := hc4 k hgkc
                  rw [hgk] at h2
                  exact Bool.noConfusion h2
              exact hA1 x hxa k hk (by omega) hgkf
            · rw [List.mem_singleton.mp hxy]
              exact rel_of_skip (sels.get ⟨k, hk⟩) y ST.aStart ST.aEnd
                ST.aIsEmpty (goodst_cases ST hc1) (hc2 k hk (by omega) hgk)
                hys hye (hc3 k hk (by omega) hk hgk)
          · refine List.pairwise_append.mpr ⟨hA2, by simp, ?_⟩
            intro x hxa b hb
            rw [List.mem_singleton.mp hb]
            exact skip_of_wst x y ST.aStart ST.aEnd (hc5 x hxa) hys hye
        by_cases hch : ST.changed = true
        · rw [if_pos hch]
          exact main _ (fromStartEnd_start_endPos ST.aStart ST.aEnd _ hc1.1).1
            (fromStartEnd_start_endPos ST.aStart ST.aEnd _ hc1.1).2
        · have hchf : ST.changed = false := by
            rw [Bool.not_eq_true] at hch
            exact hch
          rw [if_neg hch]
          obtain ⟨hS, hE, _⟩ := hc7 hchf
          exact main _ hS.symm hE.symm
    · rw [mergeLoop, dif_neg h]
      exact hA2

theorem merge_quiescent_of_sorted (sels : List Selection) (hs : Sorted sels) :
    Quiescent (Selections.merge false sels) := by
  have hsort : ∀ (p q : Nat) (hp : p < sels.length) (hq : q < sels.length),
      p ≤ q → ((sels.get ⟨p, hp⟩).start).isBeforeOrEqual
        ((sels.get ⟨q, hq⟩).start) = true := by
    intro p q hp hq hpq
    rcases Nat.eq_or_lt_of_le hpq with rfl | hlt
    · exact Position.le_refl_b _
    · exact List.pairwise_iff_get.mp hs ⟨p, hp⟩ ⟨q, hq⟩ hlt
  unfold Quiescent Selections.merge
  exact mergeLoop_quiescent sels hsort sels.length 0 (fun _ => false) []
    (by omega) (fun x hx => absurd hx (List.not_mem_nil x)) List.Pairwise.nil

/-- C2: `mergeOverlapping` is idempotent on collections sorted by start
position (as the `Selections` constructor and `Selections.sort` establish):
one pass leaves every pair of survivors skip-classified against each other,
so a second pass takes no action. -/
theorem mergeOverlapping_idempotent_of_sorted (S : List Selection)
    (hs : Sorted S) :
    Selections.mergeOverlapping (Selections.mergeOverlapping S) =
      Selections.mergeOverlapping S := by
  unfold Selections.mergeOverlapping
  exact merge_of_quiescent _ (merge_quiescent_of_sorted S hs)

/-- Witness for the C2 idempotence theorem: a concrete sorted collection with
a genuine overlap. -/
theorem mergeOverlapping_idempotent_of_sorted_witness :
    Sorted [Selection.mk ⟨0, 0⟩ ⟨0, 3⟩, Selection.mk ⟨0, 2⟩ ⟨0, 5⟩] ∧
    Selections.mergeOverlapping (Selections.mergeOverlapping
      [Selection.mk ⟨0, 0⟩ ⟨0, 3⟩, Selection.mk ⟨0, 2⟩ ⟨0, 5⟩]) =
      Selections.mergeOverlapping
        [Selection.mk ⟨0, 0⟩ ⟨0, 3⟩, Selection.mk ⟨0, 2⟩ ⟨0, 5⟩] :=
  ⟨by decide, mergeOverlapping_idempotent_of_sorted _ (by decide)⟩
